import Mathlib

/-!
Shallow embedding of `src/app.py` (utc-uvira/app2): a small Streamlit app that
loads herbal-mixture records from `melanges.json`, builds a normalized objective
index, filters records by a selected objective, renders them, and maintains a
file-backed visit counter (`visits.json`).

Strings are modelled as lists of Unicode code points (`List Nat`).  The Unicode
data used by `str.lower`, `unicodedata.normalize("NFD", ...)` and the `Mn`
category test is embedded for the Latin-1 fragment the application's data
domain uses (ASCII plus the accented letters and typographic apostrophe that
occur in French labels); code points outside the embedded tables are left
unchanged, which matches the Unicode tables on that fragment.
-/

namespace App2

/-- Code points of a Lean string literal, used to write concrete Python strings. -/
def cs (s : String) : List Nat := s.data.map Char.toNat

/-- JSON values as the application sees them after `json.load` / `json.loads`.
Numbers are modelled as integers (the data domain of the app uses only
integer counters); object fields keep their file order, as Python dicts do. -/
inductive Json where
  | null : Json
  | bool (b : Bool) : Json
  | int (n : Int) : Json
  | str (s : List Nat) : Json
  | arr (xs : List Json) : Json
  | obj (kvs : List (List Nat × Json)) : Json

/-- `str.lower` on a code point, embedded for the ASCII and Latin-1 letters
(`A`-`Z` shift by 32; `À`-`Þ` except `×` shift by 32). -/
def pyLower (c : Nat) : Nat :=
  if 65 ≤ c ∧ c ≤ 90 then c + 32
  else if 192 ≤ c ∧ c ≤ 222 ∧ c ≠ 215 then c + 32
  else c

/-- `text.replace("’", "'")` on a code point: U+2019 becomes U+0027. -/
def aposToAscii (c : Nat) : Nat :=
  if c = 0x2019 then 0x27 else c

/-- Canonical decomposition (NFD) of a code point, embedded for the lowercase
accented Latin-1 letters used by the app's French data; other code points are
already NFD and map to themselves. -/
def nfdChar (c : Nat) : List Nat :=
  if c = 0xE0 then [0x61, 0x300]
  else if c = 0xE2 then [0x61, 0x302]
  else if c = 0xE7 then [0x63, 0x327]
  else if c = 0xE8 then [0x65, 0x300]
  else if c = 0xE9 then [0x65, 0x301]
  else if c = 0xEA then [0x65, 0x302]
  else if c = 0xEB then [0x65, 0x308]
  else if c = 0xEE then [0x69, 0x302]
  else if c = 0xEF then [0x69, 0x308]
  else if c = 0xF4 then [0x6F, 0x302]
  else if c = 0xF9 then [0x75, 0x300]
  else if c = 0xFB then [0x75, 0x302]
  else if c = 0xFC then [0x75, 0x308]
  else [c]

/-- `unicodedata.category(c) == "Mn"`: the combining diacritical marks block. -/
def isMn (c : Nat) : Bool :=
  decide (0x300 ≤ c ∧ c ≤ 0x36F)

/-- Whitespace stripped by Python `str.strip()` (ASCII whitespace and NBSP). -/
def isPySpace (c : Nat) : Bool :=
  decide (c = 0x9 ∨ c = 0xA ∨ c = 0xB ∨ c = 0xC ∨ c = 0xD ∨ c = 0x20 ∨ c = 0xA0)

/-- Remove trailing whitespace (the right half of `str.strip()`). -/
def rstripR : List Nat → List Nat
  | [] => []
  | a :: t =>
    match rstripR t with
    | [] => if isPySpace a then [] else [a]
    | r => a :: r

/-- `str.strip()`: drop leading then trailing whitespace. -/
def pyStrip (l : List Nat) : List Nat :=
  rstripR (l.dropWhile isPySpace)

/-- String-level NFD: concatenate the per-code-point decompositions. -/
def nfdExpand : List Nat → List Nat
  | [] => []
  | c :: t => nfdChar c ++ nfdExpand t

/-- `"".join(c for c in text if unicodedata.category(c) != "Mn")`. -/
def removeMn (l : List Nat) : List Nat :=
  l.filter (fun c => !isMn c)

/-- `normalize` from `app.py` on an actual string: lowercase, unify the
typographic apostrophe, NFD-decompose, drop combining marks, strip. -/
def normalizeC (s : List Nat) : List Nat :=
  pyStrip (removeMn (nfdExpand ((s.map pyLower).map aposToAscii)))

/-- `normalize` applied to an arbitrary value: the non-string guard returns
the empty string. -/
def normJson : Json → List Nat
  | Json.str s => normalizeC s
  | _ => []

end App2

namespace App2

/-! ## Association-list operations (Python `dict` semantics)

A Python dict preserves insertion order; assigning to an existing key
replaces its value in place, assigning to a fresh key appends it. -/

/-- Lookup in an ordered association list. -/
def alookup {V : Type} : List (List Nat × V) → List Nat → Option V
  | [], _ => none
  | (k, v) :: t, k0 => if k = k0 then some v else alookup t k0

/-- `d[k] = v` on a Python dict: replace in place or append. -/
def upsert {V : Type} : List (List Nat × V) → List Nat → V → List (List Nat × V)
  | [], k, v => [(k, v)]
  | (k0, v0) :: t, k, v =>
    if k0 = k then (k, v) :: t else (k0, v0) :: upsert t k v

/-- `m.get(key, default)` on a parsed JSON object (the app only calls `.get`
on values already known to be dicts). -/
def jget (m : Json) (k : List Nat) (d : Json) : Json :=
  match m with
  | Json.obj kvs => (alookup kvs k).getD d
  | _ => d

/-- `isinstance(x, dict)`. -/
def isDict : Json → Bool
  | Json.obj _ => true
  | _ => false

/-- `isinstance(x, str)`. -/
def isStr : Json → Bool
  | Json.str _ => true
  | _ => false

/-! ## Visit counter (`count_visit`, lines 28-50, and the read-only branch,
lines 102-110)

The persisted counter file is modelled as `Option (Option Json)`:
`none` = file missing, `some none` = file exists but its content is not
valid JSON, `some (some j)` = file parses to `j`. -/

/-- A counter-file state. -/
def CounterFile : Type := Option (Option Json)

/-- Decimal digit string to a number (`none` if empty or not all digits). -/
def digitsToNat : List Nat → Option Nat
  | [] => none
  | l =>
    if l.all (fun c => 48 ≤ c ∧ c ≤ 57) then
      some (l.foldl (fun a c => a * 10 + (c - 48)) 0)
    else none

/-- Python `int()` applied to a string: surrounding whitespace is ignored,
then an optional sign and a nonempty run of decimal digits. -/
def pyStrToInt (s : List Nat) : Option Int :=
  match pyStrip s with
  | 43 :: rest => (digitsToNat rest).map Int.ofNat
  | 45 :: rest => (digitsToNat rest).map (fun n => -(n : Int))
  | rest => (digitsToNat rest).map Int.ofNat

/-- Python `int(x)` on a JSON value: ints pass through, booleans are the
`int` subclass (`True` is 1), numeric strings parse; anything else raises
(`TypeError` / `ValueError`), modelled as `none`. -/
def pyInt : Json → Option Int
  | Json.int n => some n
  | Json.bool b => some (if b then 1 else 0)
  | Json.str s => pyStrToInt s
  | _ => none

/-- The key `"visits"`. -/
def kVisits : List Nat := cs "visits"

/-- The `data` dict read at the top of `count_visit`: `{"visits": 0}` when
the file is missing, unreadable, or does not parse to a dict. -/
def counterData (f : CounterFile) : Json :=
  match f with
  | some (some j) => if isDict j then j else Json.obj [(kVisits, Json.int 0)]
  | some none => Json.obj [(kVisits, Json.int 0)]
  | none => Json.obj [(kVisits, Json.int 0)]

/-- Fields of the `data` dict (always a dict by construction). -/
def objFields : Json → List (List Nat × Json)
  | Json.obj kvs => kvs
  | _ => []

/-- `count_visit`: read `data`, compute `int(data.get("visits", 0)) + 1`
(which raises when the stored value is not `int`-convertible), store it back
under `"visits"`, write the file, return the new count.  The result carries
the returned count and the document written back. -/
def count_visit (f : CounterFile) : Except Unit (Int × Json) :=
  let data := counterData f
  match pyInt (jget data kVisits (Json.int 0)) with
  | none => Except.error ()
  | some n =>
    Except.ok (n + 1, Json.obj (upsert (objFields data) kVisits (Json.int (n + 1))))

/-- The read-only branch (lines 102-110): `json.loads(...).get("visits", 0)`
inside `try/except` with a missing-file guard; any failure (unreadable file,
non-dict document whose `.get` raises `AttributeError`) yields 0.  It never
writes. -/
def peekVisits (f : CounterFile) : Json :=
  match f with
  | some (some (Json.obj kvs)) => (alookup kvs kVisits).getD (Json.int 0)
  | some (some _) => Json.int 0
  | some none => Json.int 0
  | none => Json.int 0

/-! ## Record store (`load_melanges`, lines 74-94)

The data file is modelled like the counter file: `none` = missing,
`some none` = malformed JSON, `some (some j)` = parses to `j`. -/

/-- A `melanges.json` file state. -/
def DataFile : Type := Option (Option Json)

/-- Fatal load failures (`st.error` + `st.stop`). -/
inductive LoadError where
  | missing : LoadError
  | badJson : LoadError
  | notAList : LoadError

/-- `load_melanges`: missing file, malformed JSON, or a non-array top level
halt with a user-visible error; otherwise every element that is not a dict
is silently dropped. -/
def load_melanges (f : DataFile) : Except LoadError (List Json) :=
  match f with
  | none => Except.error LoadError.missing
  | some none => Except.error LoadError.badJson
  | some (some j) =>
    match j with
    | Json.arr xs => Except.ok (xs.filter isDict)
    | _ => Except.error LoadError.notAList

/-! ## Objective index (lines 121-128) -/

/-- The key `"objectifs"`. -/
def kObjectifs : List Nat := cs "objectifs"

/-- Python iteration `for x in v`: lists yield their elements, strings yield
their characters as 1-character strings, dicts yield their keys; numbers,
booleans and `None` raise `TypeError`. -/
def pyIter : Json → Except Unit (List Json)
  | Json.arr xs => Except.ok xs
  | Json.str s => Except.ok (s.map (fun c => Json.str [c]))
  | Json.obj kvs => Except.ok (kvs.map (fun kv => Json.str kv.1))
  | _ => Except.error ()

/-- `for obj in m.get("objectifs", [])`: the iterated values of a record's
objectives field. -/
def recObjs (m : Json) : Except Unit (List Json) :=
  pyIter (jget m kObjectifs (Json.arr []))

/-- One step of the inner loop: `if isinstance(obj, str):
objectif_map[normalize(obj)] = obj`. -/
def insObj (a : List (List Nat × List Nat)) (o : Json) : List (List Nat × List Nat) :=
  match o with
  | Json.str s => upsert a (normalizeC s) s
  | _ => a

/-- The nested build loop over the remaining records, carrying the map
built so far. -/
def buildFrom (a : List (List Nat × List Nat)) :
    List Json → Except Unit (List (List Nat × List Nat))
  | [] => Except.ok a
  | m :: ms =>
    match recObjs m with
    | Except.error e => Except.error e
    | Except.ok objs => buildFrom (objs.foldl insObj a) ms

/-- `objectif_map` built from the loaded records (lines 121-126). -/
def buildIndex (ms : List Json) : Except Unit (List (List Nat × List Nat)) :=
  buildFrom [] ms

/-- Lexicographic code-point comparison, the order `sorted` puts Python
strings in. -/
def lexLe : List Nat → List Nat → Bool
  | [], _ => true
  | _ :: _, [] => false
  | a :: s, b :: t => if a < b then true else if a = b then lexLe s t else false

/-- Insert into an already-sorted list. -/
def insertLe (x : List Nat) : List (List Nat) → List (List Nat)
  | [] => [x]
  | a :: t => if lexLe x a then x :: a :: t else a :: insertLe x t

/-- Ascending insertion sort, the embedding of `sorted`. -/
def sortLex : List (List Nat) → List (List Nat)
  | [] => []
  | a :: t => insertLe a (sortLex t)

/-- The stored display labels of the index. -/
def valuesOf (idx : List (List Nat × List Nat)) : List (List Nat) :=
  idx.map Prod.snd

/-- `objectifs_affiches = sorted(objectif_map.values())` (line 128). -/
def objectifsAffiches (idx : List (List Nat × List Nat)) : List (List Nat) :=
  sortLex (valuesOf idx)

/-! ## Filtering (lines 146-154) -/

/-- `any(normalize(o) == objectif_norm for o in m.get("objectifs", []))`:
`Except` because starting the iteration can raise. -/
def recMatches (m : Json) (key : List Nat) : Except Unit Bool :=
  match recObjs m with
  | Except.error e => Except.error e
  | Except.ok objs => Except.ok (objs.any (fun o => normJson o == key))

/-- The list comprehension `recs` (lines 151-154), evaluated left to right,
aborted by the first raise. -/
def filterRecs (ms : List Json) (key : List Nat) : Except Unit (List Json) :=
  match ms with
  | [] => Except.ok []
  | m :: t =>
    match recMatches m key with
    | Except.error e => Except.error e
    | Except.ok b =>
      match filterRecs t key with
      | Except.error e => Except.error e
      | Except.ok rest => Except.ok (if b then m :: rest else rest)

/-- Filtering by a selected label: `objectif_norm = normalize(objectif_label)`
(line 146) feeds the comprehension. -/
def filterByLabel (ms : List Json) (lbl : List Nat) : Except Unit (List Json) :=
  filterRecs ms (normalizeC lbl)

/-! ## Rendering one record (lines 164-195) -/

/-- The key `"ingredients"`. -/
def kIngredients : List Nat := cs "ingredients"

/-- The key `"preparation"`. -/
def kPreparation : List Nat := cs "preparation"

/-- The key `"precautions"`. -/
def kPrecautions : List Nat := cs "precautions"

/-- The key `"nom"`. -/
def kNom : List Nat := cs "nom"

/-- The `ingredients` coercion (lines 169-173): a bare string becomes a
one-element list, any non-list becomes the empty list. -/
def ingredientsListOf (r : Json) : List Json :=
  match jget r kIngredients (Json.arr []) with
  | Json.str s => [Json.str s]
  | Json.arr xs => xs
  | _ => []

/-- The `preparation` coercion (lines 179-183), same shape. -/
def preparationListOf (r : Json) : List Json :=
  match jget r kPreparation (Json.arr []) with
  | Json.str s => [Json.str s]
  | Json.arr xs => xs
  | _ => []

/-- Python `sep.join(xs)`: every element must be a string, otherwise
`TypeError`. -/
def pyJoin (sep : List Nat) : List Json → Except Unit (List Nat)
  | [] => Except.ok []
  | [Json.str s] => Except.ok s
  | [_] => Except.error ()
  | Json.str s :: x :: t =>
    match pyJoin sep (x :: t) with
    | Except.error e => Except.error e
    | Except.ok rest => Except.ok (s ++ sep ++ rest)
  | _ :: _ :: _ => Except.error ()

/-- `enumerate(preparation, start=1)`. -/
def enumFrom (i : Nat) : List Json → List (Nat × Json)
  | [] => []
  | x :: t => (i, x) :: enumFrom (i + 1) t

/-- What the app displays for one record: the name value, the ingredients
line, the numbered preparation steps, and the precaution warning when shown.
Formatting of single values through f-strings and `st.write` is total and is
left to the UI boundary; the values displayed are recorded instead. -/
structure RenderOut where
  name : Json
  ingTxt : List Nat
  steps : List (Nat × Json)
  precaution : Option (List Nat)

/-- Rendering one filtered record (lines 164-195).  The only fallible step is
`", ".join(ingredients)` (line 176), which raises if some list element is not
a string; everything else is guarded by `isinstance` checks or total. -/
def renderRecord (r : Json) : Except Unit RenderOut :=
  let ing := ingredientsListOf r
  let ingTxtE : Except Unit (List Nat) :=
    match ing with
    | [] => Except.ok (cs "—")
    | _ => pyJoin (cs ", ") ing
  match ingTxtE with
  | Except.error e => Except.error e
  | Except.ok ingTxt =>
    let prep := preparationListOf r
    let prec :=
      match jget r kPrecautions (Json.str []) with
      | Json.str s => if pyStrip s = [] then none else some s
      | _ => none
    Except.ok
      { name := jget r kNom (Json.str (cs "Sans nom"))
        ingTxt := ingTxt
        steps := enumFrom 1 prep
        precaution := prec }

/-! ## Derived views used in the statements -/

/-- `isinstance(x, list)` on the parsed top level. -/
def isArr : Json → Bool
  | Json.arr _ => true
  | _ => false

/-- The objectives list of a record whose `objectifs` field is an actual
array (the shape the data model prescribes). -/
def objsList (m : Json) : List Json :=
  match jget m kObjectifs (Json.arr []) with
  | Json.arr xs => xs
  | _ => []

/-- Whether a record's `objectifs` field is absent or an array. -/
def objsIsArr (m : Json) : Bool :=
  match jget m kObjectifs (Json.arr []) with
  | Json.arr _ => true
  | _ => false

/-- The string entries of an iterated objectives list, in order. -/
def strsOf (objs : List Json) : List (List Nat) :=
  objs.filterMap (fun o => match o with | Json.str s => some s | _ => none)

/-- The string objectives contributed by one record (empty when iteration
would raise; only used under a success hypothesis). -/
def strsOfRec (m : Json) : List (List Nat) :=
  match recObjs m with
  | Except.ok objs => strsOf objs
  | Except.error _ => []

/-- All string objectives across the records, in iteration order. -/
def allObjStrs : List Json → List (List Nat)
  | [] => []
  | m :: t => strsOfRec m ++ allObjStrs t

/-- The last element of a list, if any. -/
def lastOf {α : Type} : List α → Option α
  | [] => none
  | [a] => some a
  | _ :: b :: t => lastOf (b :: t)

/-- First-of-two on options. -/
def orElseO {α : Type} : Option α → Option α → Option α
  | some v, _ => some v
  | none, b => b

/-- The boolean match used by the filter comprehension, for records whose
iteration succeeds. -/
def matchesB (m : Json) (key : List Nat) : Bool :=
  match recObjs m with
  | Except.ok objs => objs.any (fun o => normJson o == key)
  | Except.error _ => false

/-- The example record list from the spec:
`[{"objectifs":["Stress"]}, {"objectifs":["stress"]}]`. -/
def exRecs : List Json :=
  [Json.obj [(kObjectifs, Json.arr [Json.str (cs "Stress")])],
   Json.obj [(kObjectifs, Json.arr [Json.str (cs "stress")])]]

/-! ## Association-list lemmas -/

theorem upsert_cons_eq {V : Type} (t : List (List Nat × V)) (k : List Nat) (v v1 : V) :
    upsert ((k, v1) :: t) k v = (k, v) :: t := by
  simp [upsert]

theorem upsert_cons_ne {V : Type} (t : List (List Nat × V)) (k k1 : List Nat) (v v1 : V)
    (h : k1 ≠ k) : upsert ((k1, v1) :: t) k v = (k1, v1) :: upsert t k v := by
  simp [upsert, h]

theorem alookup_upsert_self {V : Type} (a : List (List Nat × V)) (k : List Nat) (v : V) :
    alookup (upsert a k v) k = some v := by
  induction a with
  | nil => simp [upsert, alookup]
  | cons kv t ih =>
    obtain ⟨k0, v0⟩ := kv
    by_cases h : k0 = k
    · simp [upsert, h, alookup]
    · simp [upsert, h, alookup, ih]

theorem alookup_upsert_ne {V : Type} (a : List (List Nat × V)) (k k0 : List Nat) (v : V)
    (hne : k ≠ k0) : alookup (upsert a k v) k0 = alookup a k0 := by
  induction a with
  | nil => simp [upsert, alookup, hne]
  | cons kv t ih =>
    obtain ⟨k1, v1⟩ := kv
    by_cases h : k1 = k
    · simp [upsert, h, alookup, hne]
    · simp [upsert, h, alookup, ih]

theorem mem_upsert {V : Type} (a : List (List Nat × V)) (k : List Nat) (v : V)
    (kv : List Nat × V) (h : kv ∈ upsert a k v) : kv ∈ a ∨ kv = (k, v) := by
  induction a with
  | nil => simp [upsert] at h; right; exact h
  | cons p t ih =>
    obtain ⟨k1, v1⟩ := p
    by_cases h1 : k1 = k
    · simp [upsert, h1] at h
      rcases h with h | h
      · right; exact h
      · left; simp [h]
    · simp [upsert, h1] at h
      rcases h with h | h
      · left; simp [h]
      · rcases ih h with h2 | h2
        · left; simp [h2]
        · right; exact h2

theorem nodup_keys_upsert {V : Type} (a : List (List Nat × V)) (k : List Nat) (v : V)
    (h : (a.map Prod.fst).Nodup) : ((upsert a k v).map Prod.fst).Nodup := by
  induction a with
  | nil => simp [upsert]
  | cons p t ih =>
    obtain ⟨k1, v1⟩ := p
    simp only [List.map_cons, List.nodup_cons] at h
    by_cases h1 : k1 = k
    · subst h1
      rw [upsert_cons_eq]
      simp only [List.map_cons, List.nodup_cons]
      exact h
    · rw [upsert_cons_ne t k k1 v v1 h1]
      simp only [List.map_cons, List.nodup_cons]
      refine ⟨?_, ih h.2⟩
      intro hk1
      rcases List.mem_map.1 hk1 with ⟨kv, hkv, hfst⟩
      rcases mem_upsert t k v kv hkv with hm | hm
      · exact h.1 (List.mem_map.2 ⟨kv, hm, hfst⟩)
      · apply h1
        rw [hm] at hfst
        exact hfst.symm

/-! ## `lastOf` and `orElseO` lemmas -/

theorem lastOf_cons_cons {α : Type} (a b : α) (t : List α) :
    lastOf (a :: b :: t) = lastOf (b :: t) := rfl

theorem lastOf_cons_ne_nil {α : Type} (a : α) (t : List α) :
    ∃ v, lastOf (a :: t) = some v := by
  induction t generalizing a with
  | nil => exact ⟨a, rfl⟩
  | cons b t2 ih => simpa [lastOf_cons_cons] using ih b

theorem orElseO_none {α : Type} (x : Option α) : orElseO x none = x := by
  cases x <;> rfl

theorem orElseO_assoc {α : Type} (x y z : Option α) :
    orElseO (orElseO x y) z = orElseO x (orElseO y z) := by
  cases x <;> rfl

theorem lastOf_append {α : Type} (x y : List α) :
    lastOf (x ++ y) = orElseO (lastOf y) (lastOf x) := by
  induction x with
  | nil =>
    cases hy : lastOf y
    · cases y with
      | nil => simp [lastOf, orElseO]
      | cons b t => obtain ⟨v, hv⟩ := lastOf_cons_ne_nil b t; rw [hv] at hy; cases hy
    · simp [orElseO, hy]
  | cons a t ih =>
    cases t with
    | nil =>
      cases y with
      | nil => simp [lastOf, orElseO]
      | cons b u =>
        obtain ⟨v, hv⟩ := lastOf_cons_ne_nil b u
        simp [lastOf_cons_cons, hv, orElseO, lastOf]
    | cons a2 t2 =>
      calc lastOf ((a :: a2 :: t2) ++ y) = lastOf ((a2 :: t2) ++ y) := rfl
        _ = orElseO (lastOf y) (lastOf (a2 :: t2)) := ih
        _ = orElseO (lastOf y) (lastOf (a :: a2 :: t2)) := by rw [lastOf_cons_cons]

/-! ## Normalizer lemmas

`normalizeC` is `pyStrip` after a per-code-point transformation; the
transformation is idempotent code point by code point, which gives
idempotence of the whole function. -/

/-- The per-code-point part of the pipeline: lowercase, unify the
apostrophe, decompose, drop combining marks. -/
def coreChar (c : Nat) : List Nat :=
  removeMn (nfdChar (aposToAscii (pyLower c)))

/-- The per-code-point pipeline over a whole string. -/
def coreFlat : List Nat → List Nat
  | [] => []
  | c :: t => coreChar c ++ coreFlat t

theorem pyLower_idem (c : Nat) : pyLower (pyLower c) = pyLower c := by
  unfold pyLower
  split_ifs <;> omega

theorem nfd_shape (x : Nat) :
    nfdChar x = [x] ∨
    ∃ b m, nfdChar x = [b, m] ∧ isMn m = true ∧ isMn b = false ∧
      pyLower b = b ∧ aposToAscii b = b ∧ nfdChar b = [b] := by
  by_cases h1 : x = 0xE0
  · subst h1; right; exact ⟨0x61, 0x300, by decide, by decide, by decide, by decide, by decide, by decide⟩
  by_cases h2 : x = 0xE2
  · subst h2; right; exact ⟨0x61, 0x302, by decide, by decide, by decide, by decide, by decide, by decide⟩
  by_cases h3 : x = 0xE7
  · subst h3; right; exact ⟨0x63, 0x327, by decide, by decide, by decide, by decide, by decide, by decide⟩
  by_cases h4 : x = 0xE8
  · subst h4; right; exact ⟨0x65, 0x300, by decide, by decide, by decide, by decide, by decide, by decide⟩
  by_cases h5 : x = 0xE9
  · subst h5; right; exact ⟨0x65, 0x301, by decide, by decide, by decide, by decide, by decide, by decide⟩
  by_cases h6 : x = 0xEA
  · subst h6; right; exact ⟨0x65, 0x302, by decide, by decide, by decide, by decide, by decide, by decide⟩
  by_cases h7 : x = 0xEB
  · subst h7; right; exact ⟨0x65, 0x308, by decide, by decide, by decide, by decide, by decide, by decide⟩
  by_cases h8 : x = 0xEE
  · subst h8; right; exact ⟨0x69, 0x302, by decide, by decide, by decide, by decide, by decide, by decide⟩
  by_cases h9 : x = 0xEF
  · subst h9; right; exact ⟨0x69, 0x308, by decide, by decide, by decide, by decide, by decide, by decide⟩
  by_cases h10 : x = 0xF4
  · subst h10; right; exact ⟨0x6F, 0x302, by decide, by decide, by decide, by decide, by decide, by decide⟩
  by_cases h11 : x = 0xF9
  · subst h11; right; exact ⟨0x75, 0x300, by decide, by decide, by decide, by decide, by decide, by decide⟩
  by_cases h12 : x = 0xFB
  · subst h12; right; exact ⟨0x75, 0x302, by decide, by decide, by decide, by decide, by decide, by decide⟩
  by_cases h13 : x = 0xFC
  · subst h13; right; exact ⟨0x75, 0x308, by decide, by decide, by decide, by decide, by decide, by decide⟩
  left
  simp [nfdChar, h1, h2, h3, h4, h5, h6, h7, h8, h9, h10, h11, h12, h13]

theorem coreChar_fix (c d : Nat) (hd : d ∈ coreChar c) : coreChar d = [d] := by
  unfold coreChar at hd
  rcases nfd_shape (aposToAscii (pyLower c)) with hx | ⟨b, m, hbm, hm, hb, hlb, hab, hnb⟩
  · rw [hx] at hd
    by_cases hmn : isMn (aposToAscii (pyLower c)) = true
    · simp [removeMn, hmn] at hd
    · simp [removeMn, hmn] at hd
      subst hd
      by_cases h19 : pyLower c = 0x2019
      · rw [h19]
        decide
      · rw [aposToAscii, if_neg h19] at hx hmn ⊢
        rw [coreChar, pyLower_idem, aposToAscii, if_neg h19, hx, removeMn]
        simp [hmn]
  · rw [hbm] at hd
    simp [removeMn, hm, hb] at hd
    subst hd
    rw [coreChar, hlb, hab, hnb, removeMn]
    simp [hb]

theorem pipe_eq (l : List Nat) :
    removeMn (nfdExpand ((l.map pyLower).map aposToAscii)) = coreFlat l := by
  induction l with
  | nil => rfl
  | cons c t ih =>
    simp only [List.map_cons, nfdExpand, removeMn, List.filter_append, coreFlat]
    rw [← removeMn, ← removeMn, ih, ← coreChar]

theorem normalizeC_eq (l : List Nat) : normalizeC l = pyStrip (coreFlat l) := by
  rw [normalizeC, pipe_eq]

theorem coreFlat_fix_list (l : List Nat) (h : ∀ d ∈ l, coreChar d = [d]) :
    coreFlat l = l := by
  induction l with
  | nil => rfl
  | cons a t ih =>
    rw [coreFlat, h a (by simp), ih (fun d hd => h d (by simp [hd]))]
    rfl

theorem mem_coreFlat (d : Nat) (l : List Nat) (h : d ∈ coreFlat l) :
    ∃ c ∈ l, d ∈ coreChar c := by
  induction l with
  | nil => cases h
  | cons a t ih =>
    rw [coreFlat] at h
    rcases List.mem_append.1 h with h1 | h1
    · exact ⟨a, by simp, h1⟩
    · rcases ih h1 with ⟨c, hc, hd⟩
      exact ⟨c, by simp [hc], hd⟩

/-! ## Strip lemmas -/

theorem mem_rstripR (d : Nat) (l : List Nat) (h : d ∈ rstripR l) : d ∈ l := by
  induction l with
  | nil => cases h
  | cons a t ih =>
    rw [rstripR] at h
    cases ht : rstripR t with
    | nil =>
      rw [ht] at h
      by_cases hsp : isPySpace a
      · simp [hsp] at h
      · simp [hsp] at h
        simp [h]
    | cons b r =>
      rw [ht] at h
      have h2 : d ∈ a :: b :: r := h
      rcases List.mem_cons.1 h2 with h1 | h1
      · simp [h1]
      · refine List.mem_cons_of_mem a (ih ?_)
        rw [ht]
        exact h1

theorem mem_pyStrip (d : Nat) (l : List Nat) (h : d ∈ pyStrip l) : d ∈ l := by
  rw [pyStrip] at h
  have h1 := mem_rstripR d _ h
  exact (List.dropWhile_suffix isPySpace).subset h1

theorem dropWhile_idem (p : Nat → Bool) (l : List Nat) :
    (l.dropWhile p).dropWhile p = l.dropWhile p := by
  induction l with
  | nil => rfl
  | cons a t ih =>
    by_cases h : p a
    · rw [List.dropWhile_cons_of_pos h]
      exact ih
    · rw [List.dropWhile_cons_of_neg h, List.dropWhile_cons_of_neg h]

theorem dropWhile_self_head (p : Nat → Bool) (v : List Nat) (hv : v.dropWhile p = v)
    (b : Nat) (hb : v.head? = some b) : p b = false := by
  cases v with
  | nil => cases hb
  | cons a t =>
    have hba : a = b := by simpa using hb
    subst hba
    by_cases h : p a
    · rw [List.dropWhile_cons_of_pos h] at hv
      have hlen : (t.dropWhile p).length ≤ t.length :=
        (List.dropWhile_suffix p).sublist.length_le
      rw [hv] at hlen
      simp at hlen
    · simpa using h

theorem rstripR_nil_or_head (l : List Nat) :
    rstripR l = [] ∨ (rstripR l).head? = l.head? := by
  cases l with
  | nil => left; rfl
  | cons a t =>
    rw [rstripR]
    cases ht : rstripR t with
    | nil =>
      by_cases hsp : isPySpace a
      · left; simp [hsp]
      · right; simp [hsp]
    | cons b r => right; rfl

theorem rstripR_idem (l : List Nat) : rstripR (rstripR l) = rstripR l := by
  induction l with
  | nil => rfl
  | cons a t ih =>
    cases ht : rstripR t with
    | nil =>
      have e1 : rstripR (a :: t) = if isPySpace a then [] else [a] := by
        rw [rstripR, ht]
      by_cases hsp : isPySpace a
      · rw [e1, if_pos hsp]
        rfl
      · rw [e1, if_neg hsp]
        simp [rstripR, hsp]
    | cons b r =>
      have e1 : rstripR (a :: t) = a :: b :: r := by
        rw [rstripR, ht]
      have e3 : rstripR (b :: r) = b :: r := by
        rw [← ht]
        exact ih
      rw [e1, rstripR, e3]

theorem pyStrip_idem (l : List Nat) : pyStrip (pyStrip l) = pyStrip l := by
  rw [pyStrip, pyStrip]
  have h1 : (rstripR (l.dropWhile isPySpace)).dropWhile isPySpace
      = rstripR (l.dropWhile isPySpace) := by
    rcases rstripR_nil_or_head (l.dropWhile isPySpace) with h | h
    · rw [h]; rfl
    · cases hr : rstripR (l.dropWhile isPySpace) with
      | nil => rfl
      | cons b r =>
        rw [hr] at h
        have hb : (l.dropWhile isPySpace).head? = some b := h.symm
        have hpb : isPySpace b = false :=
          dropWhile_self_head isPySpace _ (dropWhile_idem isPySpace l) b hb
        exact List.dropWhile_cons_of_neg (by simp [hpb])
  rw [h1, rstripR_idem]

/-! ## Sort membership -/

theorem mem_insertLe (x y : List Nat) (l : List (List Nat)) :
    x ∈ insertLe y l ↔ x = y ∨ x ∈ l := by
  induction l with
  | nil => simp [insertLe]
  | cons a t ih =>
    by_cases h : lexLe y a
    · simp [insertLe, h]
    · simp [insertLe, h, ih]
      tauto

theorem mem_sortLex (x : List Nat) (l : List (List Nat)) :
    x ∈ sortLex l ↔ x ∈ l := by
  induction l with
  | nil => simp [sortLex]
  | cons a t ih => simp [sortLex, mem_insertLe, ih]

/-! ## Objective-index lemmas -/

theorem insObj_non_str (a : List (List Nat × List Nat)) (o : Json)
    (h : isStr o = false) : insObj a o = a := by
  cases o <;> simp_all [insObj, isStr]

theorem alookup_foldl_insObj (objs : List Json) :
    ∀ a k, alookup (objs.foldl insObj a) k =
      orElseO (lastOf ((strsOf objs).filter (fun s => normalizeC s == k))) (alookup a k) := by
  induction objs with
  | nil => intro a k; simp [strsOf, lastOf, orElseO]
  | cons o rest ih =>
    intro a k
    rw [List.foldl_cons, ih]
    cases o with
    | str s =>
      have hstrs : strsOf (Json.str s :: rest) = s :: strsOf rest := by
        simp [strsOf]
      rw [hstrs]
      by_cases hk : normalizeC s = k
      · rw [List.filter_cons_of_pos (by simp [hk])]
        cases hF : (strsOf rest).filter (fun s2 => normalizeC s2 == k) with
        | nil =>
          simp only [lastOf, orElseO, insObj]
          rw [← hk, alookup_upsert_self]
        | cons f F2 =>
          rw [lastOf_cons_cons]
          obtain ⟨v, hv⟩ := lastOf_cons_ne_nil f F2
          rw [hv]
          rfl
      · rw [List.filter_cons_of_neg (by simp [hk])]
        rw [insObj, alookup_upsert_ne _ _ _ _ (fun he => hk he)]
    | null => simp [insObj, strsOf]
    | bool b => simp [insObj, strsOf]
    | int n => simp [insObj, strsOf]
    | arr xs => simp [insObj, strsOf]
    | obj kvs => simp [insObj, strsOf]

theorem buildFrom_ok_alookup (ms : List Json) :
    ∀ a res, buildFrom a ms = Except.ok res → ∀ k,
      alookup res k =
        orElseO (lastOf ((allObjStrs ms).filter (fun s => normalizeC s == k))) (alookup a k) := by
  induction ms with
  | nil =>
    intro a res h k
    cases h
    simp [allObjStrs, lastOf, orElseO]
  | cons m t ih =>
    intro a res h k
    rw [buildFrom] at h
    cases hro : recObjs m with
    | error e => rw [hro] at h; cases h
    | ok objs =>
      rw [hro] at h
      have hstep := ih (objs.foldl insObj a) res h k
      rw [alookup_foldl_insObj] at hstep
      have hall : allObjStrs (m :: t) = strsOf objs ++ allObjStrs t := by
        rw [allObjStrs, strsOfRec, hro]
      rw [hall, List.filter_append, lastOf_append, orElseO_assoc]
      exact hstep

theorem foldl_insObj_nodup (objs : List Json) :
    ∀ a, ((a.map Prod.fst).Nodup) → (((objs.foldl insObj a).map Prod.fst).Nodup) := by
  induction objs with
  | nil => intro a h; exact h
  | cons o rest ih =>
    intro a h
    rw [List.foldl_cons]
    apply ih
    cases o with
    | str s => exact nodup_keys_upsert a (normalizeC s) s h
    | null => exact h
    | bool b => exact h
    | int n => exact h
    | arr xs => exact h
    | obj kvs => exact h

theorem buildFrom_nodup (ms : List Json) :
    ∀ a res, (a.map Prod.fst).Nodup → buildFrom a ms = Except.ok res →
      (res.map Prod.fst).Nodup := by
  induction ms with
  | nil => intro a res h hb; cases hb; exact h
  | cons m t ih =>
    intro a res h hb
    rw [buildFrom] at hb
    cases hro : recObjs m with
    | error e => rw [hro] at hb; cases hb
    | ok objs =>
      rw [hro] at hb
      exact ih _ res (foldl_insObj_nodup objs a h) hb

theorem mem_foldl_insObj (objs : List Json) :
    ∀ a kv, kv ∈ objs.foldl insObj a →
      kv ∈ a ∨ ∃ s, Json.str s ∈ objs ∧ kv = (normalizeC s, s) := by
  induction objs with
  | nil => intro a kv h; left; exact h
  | cons o rest ih =>
    intro a kv h
    rw [List.foldl_cons] at h
    rcases ih (insObj a o) kv h with h1 | ⟨s, hs, hkv⟩
    · cases o with
      | str s =>
        rcases mem_upsert a (normalizeC s) s kv h1 with h2 | h2
        · left; exact h2
        · right; exact ⟨s, by simp, h2⟩
      | null => left; exact h1
      | bool b => left; exact h1
      | int n => left; exact h1
      | arr xs => left; exact h1
      | obj kvs => left; exact h1
    · right; exact ⟨s, List.mem_cons_of_mem o hs, hkv⟩

theorem mem_buildFrom (ms : List Json) :
    ∀ a res, buildFrom a ms = Except.ok res → ∀ kv, kv ∈ res →
      kv ∈ a ∨ ∃ m, m ∈ ms ∧ ∃ objs, recObjs m = Except.ok objs ∧
        Json.str kv.2 ∈ objs ∧ kv.1 = normalizeC kv.2 := by
  induction ms with
  | nil => intro a res h kv hkv; cases h; left; exact hkv
  | cons m t ih =>
    intro a res h kv hkv
    rw [buildFrom] at h
    cases hro : recObjs m with
    | error e => rw [hro] at h; cases h
    | ok objs =>
      rw [hro] at h
      rcases ih _ res h kv hkv with h1 | ⟨m2, hm2, objs2, hro2, hin, hk⟩
      · rcases mem_foldl_insObj objs a kv h1 with h2 | ⟨s, hs, hkv2⟩
        · left; exact h2
        · right
          refine ⟨m, by simp, objs, hro, ?_, ?_⟩
          · rw [hkv2]; exact hs
          · rw [hkv2]
      · right; exact ⟨m2, List.mem_cons_of_mem m hm2, objs2, hro2, hin, hk⟩

theorem buildFrom_ok_recObjs (ms : List Json) :
    ∀ a res, buildFrom a ms = Except.ok res →
      ∀ m ∈ ms, ∃ objs, recObjs m = Except.ok objs := by
  induction ms with
  | nil => intro a res h m hm; cases hm
  | cons m0 t ih =>
    intro a res h m hm
    rw [buildFrom] at h
    cases hro : recObjs m0 with
    | error e => rw [hro] at h; cases h
    | ok objs =>
      rw [hro] at h
      rcases List.mem_cons.1 hm with h1 | h1
      · exact ⟨objs, h1 ▸ hro⟩
      · exact ih _ res h m h1

theorem buildFrom_ok_of (ms : List Json) :
    ∀ a, (∀ m ∈ ms, ∃ objs, recObjs m = Except.ok objs) →
      ∃ res, buildFrom a ms = Except.ok res := by
  induction ms with
  | nil => intro a _; exact ⟨a, rfl⟩
  | cons m t ih =>
    intro a h
    obtain ⟨objs, hro⟩ := h m (by simp)
    obtain ⟨res, hres⟩ := ih (objs.foldl insObj a) (fun m2 hm2 => h m2 (List.mem_cons_of_mem m hm2))
    exact ⟨res, by rw [buildFrom, hro]; exact hres⟩

/-! ## Filter lemmas -/

theorem recObjs_of_arr (m : Json) (h : objsIsArr m = true) :
    recObjs m = Except.ok (objsList m) := by
  rw [objsIsArr] at h
  rw [recObjs, objsList]
  cases hv : jget m kObjectifs (Json.arr []) <;> rw [hv] at h <;> first
    | rfl
    | cases h

theorem filterRecs_ok (ms : List Json) (key : List Nat)
    (h : ∀ m ∈ ms, ∃ objs, recObjs m = Except.ok objs) :
    filterRecs ms key = Except.ok (ms.filter (fun m => matchesB m key)) := by
  induction ms with
  | nil => rfl
  | cons m t ih =>
    obtain ⟨objs, hro⟩ := h m (by simp)
    have ht := ih (fun m2 hm2 => h m2 (List.mem_cons_of_mem m hm2))
    rw [filterRecs, recMatches, hro, ht]
    have hmb : matchesB m key = objs.any (fun o => normJson o == key) := by
      rw [matchesB, hro]
    by_cases hb : objs.any (fun o => normJson o == key) = true
    · rw [List.filter_cons_of_pos (by rw [hmb]; exact hb)]
      simp [hb]
    · rw [List.filter_cons_of_neg (by rw [hmb]; simpa using hb)]
      simp [hb]

/-! ## Rendering lemmas -/

theorem pyJoin_ok (sep : List Nat) (l : List Json) (h : ∀ x ∈ l, isStr x = true) :
    ∃ s, pyJoin sep l = Except.ok s := by
  induction l with
  | nil => exact ⟨[], rfl⟩
  | cons x t ih =>
    have hx := h x (by simp)
    cases x with
    | str s0 =>
      cases t with
      | nil => exact ⟨s0, rfl⟩
      | cons y t2 =>
        obtain ⟨s1, hs1⟩ := ih (fun z hz => h z (List.mem_cons_of_mem _ hz))
        refine ⟨s0 ++ sep ++ s1, ?_⟩
        rw [pyJoin, hs1]
    | null => simp [isStr] at hx
    | bool b => simp [isStr] at hx
    | int n => simp [isStr] at hx
    | arr xs => simp [isStr] at hx
    | obj kvs => simp [isStr] at hx

theorem render_ok_of (r : Json) (h : ∀ x ∈ ingredientsListOf r, isStr x = true) :
    ∃ out, renderRecord r = Except.ok out := by
  cases hres : renderRecord r with
  | ok out => exact ⟨out, rfl⟩
  | error e =>
    exfalso
    cases hing : ingredientsListOf r with
    | nil =>
      simp [renderRecord, hing] at hres
    | cons x t =>
      obtain ⟨s, hs⟩ :=
        pyJoin_ok (cs ", ") (x :: t) (fun z hz => h z (by rw [hing]; exact hz))
      simp [renderRecord, hing, hs] at hres

end App2

namespace App2

/-! ## The claims -/

/-- C1 (amended): `count_visit` treats the previous count as 0 when the
counter file is missing, unreadable, or does not parse to an object; when the
object lacks a `visits` key the default 0 is used; when the `visits` value is
`int`-convertible (an integer, a boolean, or a numeric string) the call
returns that value plus one and writes the updated document back; but a
`visits` value that is not `int`-convertible makes `int(...)` raise, so the
call fails rather than defaulting to 0. -/
theorem C1_increment_behavior :
    (∀ f : CounterFile,
      f = none ∨ f = some none ∨ (∃ j, f = some (some j) ∧ isDict j = false) →
      count_visit f = Except.ok (1, Json.obj [(kVisits, Json.int 1)])) ∧
    (∀ kvs : List (List Nat × Json), ∀ v : Json, ∀ n : Int,
      alookup kvs kVisits = some v → pyInt v = some n →
      count_visit (some (some (Json.obj kvs))) =
        Except.ok (n + 1, Json.obj (upsert kvs kVisits (Json.int (n + 1))))) ∧
    (∀ kvs : List (List Nat × Json), alookup kvs kVisits = none →
      count_visit (some (some (Json.obj kvs))) =
        Except.ok (1, Json.obj (upsert kvs kVisits (Json.int 1)))) ∧
    (∀ kvs : List (List Nat × Json), ∀ v : Json,
      alookup kvs kVisits = some v → pyInt v = none →
      count_visit (some (some (Json.obj kvs))) = Except.error ()) := by
  have e : ∀ kvs : List (List Nat × Json),
      count_visit (some (some (Json.obj kvs))) =
        match pyInt ((alookup kvs kVisits).getD (Json.int 0)) with
        | none => Except.error ()
        | some n => Except.ok (n + 1, Json.obj (upsert kvs kVisits (Json.int (n + 1)))) :=
    fun kvs => rfl
  refine ⟨?_, ?_, ?_, ?_⟩
  · intro f hf
    rcases hf with rfl | rfl | ⟨j, rfl, hj⟩
    · rfl
    · rfl
    · cases j with
      | obj kvs => simp [isDict] at hj
      | null => rfl
      | bool b => rfl
      | int n => rfl
      | str s => rfl
      | arr xs => rfl
  · intro kvs v n hv hn
    rw [e, hv, Option.getD_some, hn]
  · intro kvs hv
    rw [e, hv, Option.getD_none]
    rfl
  · intro kvs v hv hn
    rw [e, hv, Option.getD_some, hn]

/-- Witness for C1 at the concrete state `{"visits": 5}`. -/
theorem C1_increment_behavior_w :
    count_visit (some (some (Json.obj [(kVisits, Json.int 5)]))) =
      Except.ok ((5 : Int) + 1,
        Json.obj (upsert [(kVisits, Json.int 5)] kVisits (Json.int ((5 : Int) + 1)))) :=
  C1_increment_behavior.2.1 [(kVisits, Json.int 5)] (Json.int 5) 5 rfl rfl

/-- C1 as stated is false: the persisted state `{"visits": "x"}` is an object
without an integer `visits` field, yet `increment` raises (`int("x")` is a
`ValueError`) instead of treating the previous value as 0. -/
theorem C1_counterexample :
    count_visit (some (some (Json.obj [(kVisits, Json.str (cs "x"))]))) =
      Except.error () := rfl

/-- C2 (amended): provided every record's `objectifs` value can be iterated
(absent, array, string or object) and every element of its coerced
ingredients list is a string, index building, filtering and rendering all
succeed, malformed fields degrading to safe defaults.  Without those
provisos a `TypeError` propagates (see the counterexample). -/
theorem C2_no_crash_guarded : ∀ ms : List Json, ∀ lbl : List Nat,
    (∀ m ∈ ms, ∃ objs, recObjs m = Except.ok objs) →
    (∀ m ∈ ms, ∀ x ∈ ingredientsListOf m, isStr x = true) →
    (∃ idx, buildIndex ms = Except.ok idx) ∧
    (∃ res, filterByLabel ms lbl = Except.ok res ∧
      ∀ r ∈ res, ∃ out, renderRecord r = Except.ok out) := by
  intro ms lbl hO hI
  constructor
  · exact buildFrom_ok_of ms [] hO
  · refine ⟨_, filterRecs_ok ms (normalizeC lbl) hO, ?_⟩
    intro r hr
    exact render_ok_of r (hI r (List.mem_filter.1 hr).1)

/-- Witness for C2 on the two-record example list. -/
theorem C2_no_crash_guarded_w :
    (∃ idx, buildIndex exRecs = Except.ok idx) ∧
    (∃ res, filterByLabel exRecs (cs "Stress") = Except.ok res ∧
      ∀ r ∈ res, ∃ out, renderRecord r = Except.ok out) := by
  refine C2_no_crash_guarded exRecs (cs "Stress") ?_ ?_
  · intro m hm
    rcases List.mem_cons.1 hm with rfl | hm2
    · exact ⟨_, rfl⟩
    · rcases List.mem_cons.1 hm2 with rfl | hm3
      · exact ⟨_, rfl⟩
      · cases hm3
  · intro m hm x hx
    rcases List.mem_cons.1 hm with rfl | hm2
    · have hz : ingredientsListOf (Json.obj [(kObjectifs, Json.arr [Json.str (cs "Stress")])]) = [] := rfl
      rw [hz] at hx
      cases hx
    · rcases List.mem_cons.1 hm2 with rfl | hm3
      · have hz : ingredientsListOf (Json.obj [(kObjectifs, Json.arr [Json.str (cs "stress")])]) = [] := rfl
        rw [hz] at hx
        cases hx
      · cases hm3

/-- C2 as stated is false: a record whose `ingredients` list contains a
non-string element crashes rendering — `", ".join(["a", 5])` raises
`TypeError` instead of degrading to a safe default. -/
theorem C2_counterexample :
    renderRecord (Json.obj [(kIngredients, Json.arr [Json.str (cs "a"), Json.int 5])]) =
      Except.error () := rfl

/-- C3: `normalize` is idempotent — applying it twice gives the same result
as applying it once, for every string. -/
theorem C3_normalize_idem : ∀ s : List Nat, normalizeC (normalizeC s) = normalizeC s := by
  intro s
  have hfix : ∀ d ∈ normalizeC s, coreChar d = [d] := by
    intro d hd
    rw [normalizeC_eq] at hd
    obtain ⟨c, _, hdc⟩ := mem_coreFlat d _ (mem_pyStrip d _ hd)
    exact coreChar_fix c d hdc
  rw [normalizeC_eq (normalizeC s), coreFlat_fix_list _ hfix, normalizeC_eq s, pyStrip_idem]

/-- C4: for records whose `objectifs` field is absent or an array (the data
model's record shape), a record is in the filter result iff one of its
objectives entries normalizes to the normalized selected label, and when no
record matches the result is the empty list, not an error. -/
theorem C4_filter_iff : ∀ ms : List Json, ∀ lbl : List Nat,
    (∀ m ∈ ms, objsIsArr m = true) →
    filterByLabel ms lbl = Except.ok (ms.filter (fun m => matchesB m (normalizeC lbl))) ∧
    (∀ m, m ∈ ms.filter (fun m => matchesB m (normalizeC lbl)) ↔
      m ∈ ms ∧ ∃ o ∈ objsList m, normJson o = normalizeC lbl) ∧
    ((∀ m ∈ ms, ¬ ∃ o ∈ objsList m, normJson o = normalizeC lbl) →
      filterByLabel ms lbl = Except.ok []) := by
  intro ms lbl hA
  have hO : ∀ m ∈ ms, ∃ objs, recObjs m = Except.ok objs :=
    fun m hm => ⟨objsList m, recObjs_of_arr m (hA m hm)⟩
  have hmb : ∀ m ∈ ms, (matchesB m (normalizeC lbl) = true ↔
      ∃ o ∈ objsList m, normJson o = normalizeC lbl) := by
    intro m hm
    rw [matchesB, recObjs_of_arr m (hA m hm), List.any_eq_true]
    constructor
    · rintro ⟨o, ho, hbeq⟩; exact ⟨o, ho, by simpa using hbeq⟩
    · rintro ⟨o, ho, heq⟩; exact ⟨o, ho, by simpa using heq⟩
  refine ⟨filterRecs_ok ms (normalizeC lbl) hO, ?_, ?_⟩
  · intro m
    rw [List.mem_filter]
    constructor
    · rintro ⟨h1, h2⟩; exact ⟨h1, (hmb m h1).1 h2⟩
    · rintro ⟨h1, h2⟩; exact ⟨h1, (hmb m h1).2 h2⟩
  · intro hnone
    have hflt : ms.filter (fun m => matchesB m (normalizeC lbl)) = [] := by
      rw [List.filter_eq_nil_iff]
      intro m hm hmt
      exact hnone m hm ((hmb m hm).1 hmt)
    calc filterByLabel ms lbl
        = Except.ok (ms.filter (fun m => matchesB m (normalizeC lbl))) :=
          filterRecs_ok ms (normalizeC lbl) hO
      _ = Except.ok [] := by rw [hflt]

/-- Witness for C4 on the two-record example list with label "Stress". -/
theorem C4_filter_iff_w :
    filterByLabel exRecs (cs "Stress") =
      Except.ok (exRecs.filter (fun m => matchesB m (normalizeC (cs "Stress")))) := by
  refine (C4_filter_iff exRecs (cs "Stress") ?_).1
  intro m hm
  rcases List.mem_cons.1 hm with rfl | hm2
  · rfl
  · rcases List.mem_cons.1 hm2 with rfl | hm3
    · rfl
    · cases hm3

/-- C5: the objective index keeps exactly one entry per normalized key (the
key list is duplicate-free) and the stored label for a key is the last
occurrence in iteration order; on the spec's example the index has the
single entry "stress" and the display list is exactly ["stress"]. -/
theorem C5_last_wins :
    (∀ ms idx, buildIndex ms = Except.ok idx →
      (idx.map Prod.fst).Nodup ∧
      ∀ k, alookup idx k = lastOf ((allObjStrs ms).filter (fun s => normalizeC s == k))) ∧
    (buildIndex exRecs = Except.ok [(cs "stress", cs "stress")] ∧
      objectifsAffiches [(cs "stress", cs "stress")] = [cs "stress"]) := by
  constructor
  · intro ms idx h
    refine ⟨buildFrom_nodup ms [] idx (by simp) h, ?_⟩
    intro k
    rw [buildFrom_ok_alookup ms [] idx h k]
    have hnil : alookup ([] : List (List Nat × List Nat)) k = none := rfl
    rw [hnil, orElseO_none]
  · exact ⟨rfl, rfl⟩

/-- Witness for C5 at the example list and the key "stress". -/
theorem C5_last_wins_w :
    (([(cs "stress", cs "stress")]).map Prod.fst).Nodup ∧
    alookup [(cs "stress", cs "stress")] (cs "stress") =
      lastOf ((allObjStrs exRecs).filter (fun s => normalizeC s == cs "stress")) := by
  have h := C5_last_wins.1 exRecs [(cs "stress", cs "stress")] rfl
  exact ⟨h.1, h.2 (cs "stress")⟩

/-- C6: loading fails fatally exactly when the data file is missing, its JSON
is malformed, or its top level is not an array; otherwise it succeeds and
drops exactly the non-object elements. -/
theorem C6_load : ∀ f : DataFile,
    ((∃ e, load_melanges f = Except.error e) ↔
      (f = none ∨ f = some none ∨ ∃ j, f = some (some j) ∧ isArr j = false)) ∧
    (∀ xs, f = some (some (Json.arr xs)) →
      load_melanges f = Except.ok (xs.filter isDict)) := by
  intro f
  constructor
  · constructor
    · intro he
      match f with
      | none => exact Or.inl rfl
      | some none => exact Or.inr (Or.inl rfl)
      | some (some j) =>
        refine Or.inr (Or.inr ⟨j, rfl, ?_⟩)
        cases j with
        | arr xs => obtain ⟨e, he2⟩ := he; cases he2
        | null => rfl
        | bool b => rfl
        | int n => rfl
        | str s => rfl
        | obj kvs => rfl
    · intro h
      rcases h with rfl | rfl | ⟨j, rfl, hj⟩
      · exact ⟨LoadError.missing, rfl⟩
      · exact ⟨LoadError.badJson, rfl⟩
      · cases j with
        | arr xs => simp [isArr] at hj
        | null => exact ⟨LoadError.notAList, rfl⟩
        | bool b => exact ⟨LoadError.notAList, rfl⟩
        | int n => exact ⟨LoadError.notAList, rfl⟩
        | str s => exact ⟨LoadError.notAList, rfl⟩
        | obj kvs => exact ⟨LoadError.notAList, rfl⟩
  · intro xs h
    subst h
    rfl

/-- Witness for C6 on a concrete array with one object and one non-object. -/
theorem C6_load_w :
    load_melanges (some (some (Json.arr [Json.obj [], Json.int 3]))) =
      Except.ok ([Json.obj [], Json.int 3].filter isDict) :=
  (C6_load _).2 _ rfl

/-- C7: from the persisted state `visits = 5`, two increments return 6 then 7
and write those documents back; the read-only `peek` branch then reads 7 (it
performs no write by construction, so the stored document is unchanged). -/
theorem C7_sequence :
    count_visit (some (some (Json.obj [(kVisits, Json.int 5)]))) =
      Except.ok (6, Json.obj [(kVisits, Json.int 6)]) ∧
    count_visit (some (some (Json.obj [(kVisits, Json.int 6)]))) =
      Except.ok (7, Json.obj [(kVisits, Json.int 7)]) ∧
    peekVisits (some (some (Json.obj [(kVisits, Json.int 7)]))) = Json.int 7 :=
  ⟨rfl, rfl, rfl⟩

/-- C8: casing and accent variants of Café normalize to one value, and the
typographic-apostrophe form of l'eau (code point 0x2019) normalizes to the
same value as the plain-apostrophe form (code point 39). -/
theorem C8_variants :
    normalizeC (cs "Café") = normalizeC (cs "café") ∧
    normalizeC (cs "café") = normalizeC (cs "CAFÉ") ∧
    normalizeC [108, 0x2019, 101, 97, 117] = normalizeC [108, 39, 101, 97, 117] := by
  refine ⟨?_, ?_, ?_⟩ <;> decide

/-- C9: whenever the objective index builds successfully, filtering by any
label offered in the sorted display list returns a non-empty result. -/
theorem C9_offered_label_nonempty : ∀ ms idx lbl,
    buildIndex ms = Except.ok idx →
    lbl ∈ objectifsAffiches idx →
    ∃ res, filterByLabel ms lbl = Except.ok res ∧ res ≠ [] := by
  intro ms idx lbl hb hl
  rw [objectifsAffiches, mem_sortLex, valuesOf] at hl
  obtain ⟨kv, hkv, hsnd⟩ := List.mem_map.1 hl
  have hO := buildFrom_ok_recObjs ms [] idx hb
  rcases mem_buildFrom ms [] idx hb kv hkv with h1 | ⟨m, hm, objs, hro, hin, _⟩
  · cases h1
  · refine ⟨_, filterRecs_ok ms (normalizeC lbl) hO, ?_⟩
    apply List.ne_nil_of_mem (a := m)
    rw [List.mem_filter]
    refine ⟨hm, ?_⟩
    rw [matchesB, hro, List.any_eq_true]
    refine ⟨Json.str kv.2, hin, ?_⟩
    rw [hsnd]
    simp [normJson]

/-- Witness for C9 at the example list and the offered label "stress". -/
theorem C9_offered_label_nonempty_w :
    ∃ res, filterByLabel exRecs (cs "stress") = Except.ok res ∧ res ≠ [] :=
  C9_offered_label_nonempty exRecs [(cs "stress", cs "stress")] (cs "stress") rfl (by decide)

/-- C10: a non-string objectives entry adds nothing to the objective index
(the `isinstance(obj, str)` guard skips it), but during filtering
`normalize` maps it to the empty string, so a record containing such an
entry matches every selected label whose normalized form is empty. -/
theorem C10_non_string_entries :
    (∀ a o, isStr o = false → insObj a o = a) ∧
    (∀ m objs lbl, recObjs m = Except.ok objs →
      (∃ o ∈ objs, isStr o = false) →
      normalizeC lbl = [] →
      recMatches m (normalizeC lbl) = Except.ok true) := by
  constructor
  · exact fun a o h => insObj_non_str a o h
  · rintro m objs lbl hro ⟨o, ho, hns⟩ hnl
    have hno : normJson o = [] := by
      cases o with
      | str s => simp [isStr] at hns
      | null => rfl
      | bool b => rfl
      | int n => rfl
      | arr xs => rfl
      | obj kvs => rfl
    have hany : (objs.any fun o2 => normJson o2 == ([] : List Nat)) = true :=
      List.any_eq_true.2 ⟨o, ho, by rw [hno]; rfl⟩
    rw [hnl]
    simp only [recMatches, hro, hany]

/-- Witness for C10: a record with the single objectives entry `null`,
filtered by the label " " whose normalized form is empty. -/
theorem C10_non_string_entries_w :
    insObj [] Json.null = [] ∧
    recMatches (Json.obj [(kObjectifs, Json.arr [Json.null])]) (normalizeC (cs " ")) =
      Except.ok true := by
  constructor
  · exact C10_non_string_entries.1 [] Json.null rfl
  · exact C10_non_string_entries.2 _ [Json.null] (cs " ") rfl
      ⟨Json.null, by simp, rfl⟩ (by decide)

end App2
